import Mathlib

/-!
# ttlcache: a shallow embedding of `cache.go` and `options.go`

The Go package keeps a `map[K]value[V]` behind a read/write mutex, stamps every
entry with an absolute expiry instant and starts one goroutine (`cleanUp`) that
removes expired entries.

Modelling choices.

* `time.Time` is an instant counted in nanoseconds on one unbounded timeline,
  `time.Duration` a signed number of nanoseconds, `Time.Add` is addition and
  `Time.After` the strict order. The standard library's range limits of
  `time.Time` are not modelled.
* The clock `nowProvider func() time.Time` is a Go closure, so what it returns
  depends on the state of the program's environment at the call. The
  environment is a type parameter `W`; a provider is a function `W → Time`, and
  every method that calls `c.now()` receives the environment it runs in.
* A Go map is a finite list of key/entry pairs without repeated keys. The order
  of the list stands for the (unspecified) iteration order of `range`.
* Every method body runs under `c.mu`, so a method is one atomic state
  transformer; the mutex itself has no sequential content and is left out.
-/

namespace ttlcache

/-! ## Time -/

/-- An instant of `time.Time`, as nanoseconds on one timeline. -/
structure Time where
  ns : Int
deriving DecidableEq, Repr

/-- A `time.Duration`: a signed count of nanoseconds. -/
abbrev Duration := Int

/-- The constant `time.Second`. -/
def Second : Duration := 1000000000

/-- The constant `time.Hour`. -/
def Hour : Duration := 3600 * Second

/-- The method `t.Add(d)`. -/
def Time.Add (t : Time) (d : Duration) : Time := ⟨t.ns + d⟩

/-- The method `t.After(u)`: whether `t` is strictly later than `u`. -/
def Time.After (t u : Time) : Bool := decide (u.ns < t.ns)

instance : Inhabited Time := ⟨⟨0⟩⟩

/-! ## Go maps -/

/-- A Go `map[K]E`: key/entry pairs, no key twice. -/
structure GoMap (K E : Type) where
  entries : List (K × E)
  nodup : (entries.map Prod.fst).Nodup

section MapOps

variable {K E : Type} [DecidableEq K]

/-- Look a key up in a list of pairs. -/
def lookupList (key : K) : List (K × E) → Option E
  | [] => none
  | x :: xs => if x.1 = key then some x.2 else lookupList key xs

/-- Overwrite the slot of `key` when there is one, otherwise add a slot. -/
def assignList (key : K) (e : E) : List (K × E) → List (K × E)
  | [] => [(key, e)]
  | x :: xs => if x.1 = key then (key, e) :: xs else x :: assignList key e xs

/-- Drop the slot of `key`. -/
def deleteList (key : K) (l : List (K × E)) : List (K × E) :=
  l.filter (fun x => decide (x.1 ≠ key))

/-- The empty map, `make(map[K]E)`. -/
def GoMap.make : GoMap K E := ⟨[], List.nodup_nil⟩

/-- The comma-ok index expression `e, ok := m[key]`; an absent key gives the
zero value of `E`. -/
def GoMap.index [Inhabited E] (m : GoMap K E) (key : K) : E × Bool :=
  match lookupList key m.entries with
  | some e => (e, true)
  | none => (default, false)

/-- The assignment `m[key] = e`. -/
def GoMap.assign (m : GoMap K E) (key : K) (e : E) : GoMap K E where
  entries := assignList key e m.entries
  nodup := by
    have hkeys : ∀ l : List (K × E), (assignList key e l).map Prod.fst =
        if key ∈ l.map Prod.fst then l.map Prod.fst else l.map Prod.fst ++ [key] := by
      intro l
      induction l with
      | nil => simp [assignList]
      | cons x xs ih =>
        by_cases hx : x.1 = key
        · simp [assignList, hx]
        · have hx2 : ¬ key = x.1 := fun h => hx h.symm
          simp only [assignList, hx, if_false, List.map_cons, ih, List.mem_cons, hx2, false_or]
          split <;> simp
    rw [hkeys]
    split
    · exact m.nodup
    · rename_i hk
      rw [List.nodup_append]
      refine ⟨m.nodup, List.nodup_singleton key, ?_⟩
      intro a ha hb
      simp only [List.mem_singleton] at hb
      exact hk (hb ▸ ha)

/-- The builtin `delete(m, key)`. -/
def GoMap.delete (m : GoMap K E) (key : K) : GoMap K E where
  entries := deleteList key m.entries
  nodup := m.nodup.sublist ((List.filter_sublist m.entries).map Prod.fst)

/-- The builtin `len(m)`. -/
def GoMap.len (m : GoMap K E) : Nat := m.entries.length

end MapOps

/-! ## The cache -/

/-- The struct `value[V]`. -/
structure value (V : Type) where
  data : V
  expiredAt : Time
deriving DecidableEq, Repr

instance {V : Type} [Inhabited V] : Inhabited (value V) := ⟨⟨default, default⟩⟩

/-- The method `value.isExpired`. -/
def value.isExpired {V : Type} (v : value V) (now : Time) : Bool :=
  now.After v.expiredAt

/-- The type `nowProvider`: a clock read in an environment `W`. -/
abbrev nowProvider (W : Type) := W → Time

/-- The struct `Cache[K, V]`. The mutex `mu` is left out; the channel `done` is
shared with the caller and its state is kept in `Sys`. -/
structure Cache (W K V : Type) where
  data : GoMap K (value V)
  nowProvider : nowProvider W
  cleanUpInterval : Duration

section CacheOps

variable {W K V : Type} [DecidableEq K] [Inhabited V]

/-- The method `now`. -/
def Cache.now (c : Cache W K V) (w : W) : Time := c.nowProvider w

/-- The method `Set`, run in environment `w`. -/
def Cache.Set (c : Cache W K V) (w : W) (key : K) (v : V) (ttl : Duration) : Cache W K V :=
  { c with data := c.data.assign key { data := v, expiredAt := (c.now w).Add ttl } }

/-- The method `Get`, run in environment `w`: the returned pair and the cache
as the method leaves it. -/
def Cache.Get (c : Cache W K V) (w : W) (key : K) : (V × Bool) × Cache W K V :=
  let (v, ok) := c.data.index key
  if !ok then
    ((v.data, false), c)
  else if v.isExpired (c.now w) then
    ((v.data, false), c)
  else
    ((v.data, true), c)

/-- The method `Delete`. -/
def Cache.Delete (c : Cache W K V) (key : K) : Cache W K V :=
  { c with data := c.data.delete key }

/-- The method `Len`. -/
def Cache.Len (c : Cache W K V) : Nat := c.data.len

/-- The method `Clear`. -/
def Cache.Clear (c : Cache W K V) : Cache W K V :=
  { c with data := GoMap.make }

/-- The method `Keys`. -/
def Cache.Keys (c : Cache W K V) : List K :=
  c.data.entries.foldl (fun keys e => keys ++ [e.1]) []

/-- One sweep pass: the body of `case <-timer.C` in `cleanUp`. The loop ranges
over the entries and calls `c.now()` once per entry; `ws k` is the environment
in which the clock is read when the loop is at key `k`. -/
def Cache.cleanUpPass (c : Cache W K V) (ws : K → W) : Cache W K V :=
  let body := fun (m : GoMap K (value V)) (e : K × value V) =>
    if e.2.isExpired (c.now (ws e.1)) then m.delete e.1 else m
  { c with data := c.data.entries.foldl body c.data }

/-! ## Construction and the sweeper goroutine -/

/-- The type `Option[K, V]`, a function that updates the cache under
construction (named `CacheOption` here, `Option` being taken). -/
abbrev CacheOption (W K V : Type) := Cache W K V → Cache W K V

/-- The option `WithNowProvider`. -/
def WithNowProvider (now : nowProvider W) : CacheOption W K V :=
  fun c => { c with nowProvider := now }

/-- The option `WithCleanUpInterval`. -/
def WithCleanUpInterval (interval : Duration) : CacheOption W K V :=
  fun c => { c with cleanUpInterval := interval }

/-- A `time.Timer` of the standard library, as `time.NewTimer` documents it: a
timer sends one value on its channel `C` once its duration has passed, and
sends nothing more unless `Reset` is called. `remaining` is the time left while
the timer is armed; `C` tells whether a value waits in the channel, whose
buffer holds one value. -/
structure Timer where
  armed : Bool
  remaining : Duration
  C : Bool
deriving DecidableEq, Repr

/-- The function `time.NewTimer`. -/
def NewTimer (d : Duration) : Timer := { armed := true, remaining := d, C := false }

/-- Real time advances by `dt`: an armed timer whose duration has passed fires
and is no longer armed. -/
def Timer.elapse (t : Timer) (dt : Duration) : Timer :=
  if t.armed then
    if t.remaining ≤ dt then { armed := false, remaining := 0, C := true }
    else { t with remaining := t.remaining - dt }
  else t

/-- The method `timer.Stop`. -/
def Timer.Stop (t : Timer) : Timer := { t with armed := false }

/-- A cache together with its sweeper goroutine: the struct, whether the
channel `done` has been closed, the local `timer` of `cleanUp`, whether
`cleanUp` is still running, and a counter of the sweep passes it has made
(the counter is not in the source; it records the history). -/
structure Sys (W K V : Type) where
  c : Cache W K V
  done : Bool
  timer : Timer
  running : Bool
  passes : Nat

/-- The function `New`; `timeNow` stands for the standard library's
`time.Now`. The result holds the cache, the open channel `done` and the
goroutine `cleanUp` at the head of its loop, its timer created. -/
def New (timeNow : nowProvider W) (options : List (CacheOption W K V)) : Sys W K V :=
  let c : Cache W K V :=
    { data := GoMap.make, nowProvider := timeNow, cleanUpInterval := 5 * Second }
  let c := options.foldl (fun c option => option c) c
  { c := c, done := false, timer := NewTimer c.cleanUpInterval, running := true, passes := 0 }

/-- One turn of the `for`/`select` loop of `cleanUp`. When a value waits in
`timer.C` the first case receives it and sweeps; when `done` is closed the
second case returns (running the deferred `timer.Stop`); when both are ready
`select` picks one, `pickDone` telling which; when neither is ready the
goroutine stays blocked. -/
def Sys.cleanUpTurn (s : Sys W K V) (ws : K → W) (pickDone : Bool) : Sys W K V :=
  if !s.running then s
  else if s.timer.C && !(s.done && pickDone) then
    { s with c := s.c.cleanUpPass ws, timer := { s.timer with C := false },
             passes := s.passes + 1 }
  else if s.done then
    { s with running := false, timer := s.timer.Stop }
  else s

/-- What can happen to a cache and its sweeper. -/
inductive Event (W K V : Type) where
  /-- Real time advances by `dt`. -/
  | elapse (dt : Duration)
  /-- The sweeper goroutine is scheduled for one turn of its loop. -/
  | sweeper (ws : K → W) (pickDone : Bool)
  /-- The caller closes `done`. -/
  | close
  /-- A caller runs `Set`. -/
  | set (w : W) (key : K) (v : V) (ttl : Duration)
  /-- A caller runs `Delete`. -/
  | delete (key : K)
  /-- A caller runs `Clear`. -/
  | clear

/-- The effect of one event. -/
def Sys.step (s : Sys W K V) : Event W K V → Sys W K V
  | .elapse dt => { s with timer := s.timer.elapse dt }
  | .sweeper ws pickDone => s.cleanUpTurn ws pickDone
  | .close => { s with done := true }
  | .set w key v ttl => { s with c := s.c.Set w key v ttl }
  | .delete key => { s with c := s.c.Delete key }
  | .clear => { s with c := s.c.Clear }

/-- The effect of a sequence of events. -/
def Sys.run (s : Sys W K V) (events : List (Event W K V)) : Sys W K V :=
  events.foldl Sys.step s

/-- The cache of the package's tests on string keys, as `New` returns it with
no option: `New[string, int]()`. The environment is the reading of the wall
clock itself. -/
def testCache : Cache Time String Int := (New (fun w => w) []).c

/-- The cache of the package's tests on integer keys: `New[int, int]()`. -/
def testCacheInt : Cache Time Int Int := (New (fun w => w) []).c

/-- A history of the cache `New[string, int]()` with the default interval of
five seconds, `done` never closed. Five seconds pass and the sweeper takes a
turn; `Set("a", 1, time.Second)` runs at the clock reading of five seconds;
then twice more five seconds pass and the sweeper takes a turn, the clock
reading ten and fifteen seconds. -/
def threeIntervals : List (Event Time String Int) :=
  [ .elapse (5 * Second), .sweeper (fun _ => ⟨5 * Second⟩) false,
    .set ⟨5 * Second⟩ "a" 1 Second,
    .elapse (5 * Second), .sweeper (fun _ => ⟨10 * Second⟩) false,
    .elapse (5 * Second), .sweeper (fun _ => ⟨15 * Second⟩) false ]

end CacheOps

/-! ## Facts about the map operations -/

section MapFacts

variable {K E : Type} [DecidableEq K]

theorem keys_assignList (key : K) (e : E) (l : List (K × E)) :
    (assignList key e l).map Prod.fst =
      if key ∈ l.map Prod.fst then l.map Prod.fst else l.map Prod.fst ++ [key] := by
  induction l with
  | nil => simp [assignList]
  | cons x xs ih =>
    by_cases hx : x.1 = key
    · simp [assignList, hx]
    · have hx2 : ¬ key = x.1 := fun h => hx h.symm
      simp only [assignList, hx, if_false, List.map_cons, ih, List.mem_cons, hx2, false_or]
      split <;> simp

theorem lookupList_assignList_self (key : K) (e : E) (l : List (K × E)) :
    lookupList key (assignList key e l) = some e := by
  induction l with
  | nil => simp [assignList, lookupList]
  | cons x xs ih =>
    by_cases hx : x.1 = key
    · simp [assignList, lookupList, hx]
    · simp [assignList, lookupList, hx, ih]

theorem lookupList_assignList_ne (key key2 : K) (e : E) (l : List (K × E)) (h : key2 ≠ key) :
    lookupList key2 (assignList key e l) = lookupList key2 l := by
  have h1 : ¬ key = key2 := fun h2 => h h2.symm
  induction l with
  | nil => simp [assignList, lookupList, h1]
  | cons x xs ih =>
    by_cases hx : x.1 = key
    · have h2 : ¬ x.1 = key2 := fun h3 => h1 (hx ▸ h3)
      simp [assignList, lookupList, if_pos hx, if_neg h1, if_neg h2]
    · by_cases hx2 : x.1 = key2
      · simp [assignList, lookupList, if_neg hx, if_pos hx2]
      · simp [assignList, lookupList, if_neg hx, if_neg hx2, ih]

theorem lookupList_eq_none_iff (key : K) (l : List (K × E)) :
    lookupList key l = none ↔ key ∉ l.map Prod.fst := by
  induction l with
  | nil => simp [lookupList]
  | cons x xs ih =>
    by_cases hx : x.1 = key
    · simp [lookupList, hx]
    · have hx2 : ¬ key = x.1 := fun h => hx h.symm
      simp only [lookupList, hx, if_false, ih, List.map_cons, List.mem_cons, hx2, false_or]

theorem lookupList_eq_some_iff (key : K) (e : E) (l : List (K × E))
    (h : (l.map Prod.fst).Nodup) :
    lookupList key l = some e ↔ (key, e) ∈ l := by
  induction l with
  | nil => simp [lookupList]
  | cons x xs ih =>
    rw [List.map_cons, List.nodup_cons] at h
    by_cases hx : x.1 = key
    · subst hx
      simp only [lookupList, if_true, Option.some.injEq, List.mem_cons]
      constructor
      · intro he; left; rw [← he]
      · rintro (he | he)
        · rw [← he]
        · exact absurd (List.mem_map_of_mem Prod.fst he) h.1
    · simp only [lookupList, hx, if_false, ih h.2, List.mem_cons]
      constructor
      · exact Or.inr
      · rintro (he | he)
        · exact absurd (by rw [← he]) hx
        · exact he

theorem length_assignList (key : K) (e : E) (l : List (K × E)) :
    (assignList key e l).length =
      if key ∈ l.map Prod.fst then l.length else l.length + 1 := by
  have h := congrArg List.length (keys_assignList key e l)
  rw [List.length_map] at h
  rw [h]
  split <;> simp

theorem mem_keys_deleteList (key k : K) (l : List (K × E)) :
    k ∈ (deleteList key l).map Prod.fst ↔ k ∈ l.map Prod.fst ∧ k ≠ key := by
  simp only [deleteList, List.mem_map, List.mem_filter, decide_eq_true_eq]
  constructor
  · rintro ⟨a, ⟨ha, hne⟩, rfl⟩
    exact ⟨⟨a, ha, rfl⟩, hne⟩
  · rintro ⟨⟨a, ha, rfl⟩, hne⟩
    exact ⟨a, ⟨ha, hne⟩, rfl⟩

theorem deleteList_of_not_mem (key : K) (l : List (K × E)) (h : key ∉ l.map Prod.fst) :
    deleteList key l = l := by
  unfold deleteList
  rw [List.filter_eq_self]
  intro a ha
  simp only [decide_eq_true_eq]
  intro hk
  exact h (hk ▸ List.mem_map_of_mem Prod.fst ha)

theorem length_deleteList_of_mem (key : K) (l : List (K × E))
    (hn : (l.map Prod.fst).Nodup) (h : key ∈ l.map Prod.fst) :
    (deleteList key l).length + 1 = l.length := by
  induction l with
  | nil => simp at h
  | cons x xs ih =>
    rw [List.map_cons, List.nodup_cons] at hn
    by_cases hx : x.1 = key
    · have hxs : key ∉ xs.map Prod.fst := hx ▸ hn.1
      have h1 : deleteList key (x :: xs) = deleteList key xs := by
        unfold deleteList
        rw [List.filter_cons_of_neg]
        simp [hx]
      rw [h1, deleteList_of_not_mem key xs hxs, List.length_cons]
    · have hmem : key ∈ xs.map Prod.fst := by
        rw [List.map_cons, List.mem_cons] at h
        rcases h with h | h
        · exact absurd h.symm hx
        · exact h
      have h1 : deleteList key (x :: xs) = x :: deleteList key xs := by
        unfold deleteList
        rw [List.filter_cons_of_pos]
        simp [hx]
      rw [h1, List.length_cons, ih hn.2 hmem, List.length_cons]

end MapFacts

/-! ## Facts about the cache methods -/

section CacheFacts

variable {W K V : Type} [DecidableEq K] [Inhabited V]

/-- What `Get` returns, by cases on the lookup. -/
theorem Get_result (c : Cache W K V) (w : W) (key : K) :
    (c.Get w key).1 =
      match lookupList key c.data.entries with
      | some v => (v.data, !(v.isExpired (c.now w)))
      | none => (default, false) := by
  unfold Cache.Get GoMap.index
  cases h : lookupList key c.data.entries with
  | none => rfl
  | some v =>
    cases he : v.isExpired (c.now w) <;> simp [he]

/-- `Get` on a key that is not in the map. -/
theorem Get_of_not_mem (c : Cache W K V) (w : W) (key : K)
    (h : key ∉ c.data.entries.map Prod.fst) : (c.Get w key).1 = (default, false) := by
  rw [Get_result, (lookupList_eq_none_iff key c.data.entries).2 h]

/-- `Get` right after `Set` of the same key: the value set, and whether the
clock of the read is not after the expiry that `Set` computed. -/
theorem Get_Set_self (c : Cache W K V) (w0 w1 : W) (key : K) (v : V) (ttl : Duration) :
    ((c.Set w0 key v ttl).Get w1 key).1 =
      (v, !((c.now w1).After ((c.now w0).Add ttl))) := by
  rw [Get_result]
  simp only [Cache.Set, GoMap.assign, lookupList_assignList_self]
  rfl

omit [DecidableEq K] [Inhabited V] in
/-- `Keys` lists the keys of the entries. -/
theorem Keys_eq (c : Cache W K V) : c.Keys = c.data.entries.map Prod.fst := by
  unfold Cache.Keys
  have h : ∀ (l : List (K × value V)) (acc : List K),
      l.foldl (fun keys e => keys ++ [e.1]) acc = acc ++ l.map Prod.fst := by
    intro l
    induction l with
    | nil => intro acc; simp
    | cons x xs ih => intro acc; simp [List.foldl_cons, ih]
  simpa using h c.data.entries []

omit [DecidableEq K] [Inhabited V] in
/-- `New` with options that leave the map alone returns a cache with an empty
map. -/
theorem New_data (timeNow : nowProvider W) (options : List (CacheOption W K V))
    (h : ∀ o ∈ options, ∀ c : Cache W K V, (o c).data = c.data) :
    (New timeNow options).c.data.entries = [] := by
  have key : ∀ (l : List (CacheOption W K V)) (c : Cache W K V),
      (∀ o ∈ l, ∀ c : Cache W K V, (o c).data = c.data) →
      (l.foldl (fun (c : Cache W K V) (option : CacheOption W K V) => option c) c).data
        = c.data := by
    intro l
    induction l with
    | nil => intro c _; rfl
    | cons o os ih =>
      intro c hl
      rw [List.foldl_cons, ih (o c) (fun o2 ho2 => hl o2 (List.mem_cons_of_mem o ho2))]
      exact hl o (List.mem_cons_self o os) c
  unfold New
  simp only []
  rw [key options _ h]
  rfl

omit [Inhabited V] in
/-- The entries of key `key` right after `Set` of that key: the new one only. -/
theorem mem_Set_entries_self (c : Cache W K V) (w : W) (key : K) (v : V) (ttl : Duration)
    (e : value V) :
    (key, e) ∈ (c.Set w key v ttl).data.entries ↔
      e = { data := v, expiredAt := (c.now w).Add ttl } := by
  rw [← lookupList_eq_some_iff key e _ (c.Set w key v ttl).data.nodup]
  simp only [Cache.Set, GoMap.assign, lookupList_assignList_self, Option.some.injEq]
  exact eq_comm

omit [Inhabited V] in
/-- `Delete` of a key that is not in the map returns the same cache. -/
theorem Delete_of_not_mem (c : Cache W K V) (key : K)
    (h : key ∉ c.data.entries.map Prod.fst) : c.Delete key = c := by
  obtain ⟨⟨entries, nodup⟩, now, interval⟩ := c
  simp only [Cache.Delete, GoMap.delete, Cache.mk.injEq, GoMap.mk.injEq, and_true]
  exact deleteList_of_not_mem key entries h

omit [Inhabited V] in
/-- The loop of a sweep pass, started on any map and run over any list of
entries: it keeps the entries of the map whose key is not the key of a listed
entry found expired. -/
theorem sweep_loop_entries (now : K → Time) (l : List (K × value V)) :
    ∀ m : GoMap K (value V),
      (l.foldl (fun (m : GoMap K (value V)) (e : K × value V) =>
          if e.2.isExpired (now e.1) then m.delete e.1 else m) m).entries =
        m.entries.filter (fun x =>
          l.all (fun e => !(e.2.isExpired (now e.1)) || decide (x.1 ≠ e.1))) := by
  induction l with
  | nil => intro m; simp
  | cons e es ih =>
    intro m
    rw [List.foldl_cons, ih]
    by_cases he : e.2.isExpired (now e.1) = true
    · rw [if_pos he]
      simp only [GoMap.delete, deleteList, List.filter_filter, List.all_cons, he, Bool.not_true,
        Bool.false_or]
      apply List.filter_congr
      intro x _
      rw [Bool.and_comm]
    · rw [if_neg he]
      simp only [Bool.not_eq_true] at he
      simp only [List.all_cons, he, Bool.not_false, Bool.true_or, Bool.true_and]

omit [Inhabited V] in
/-- A sweep pass keeps exactly the entries that are not expired at the reading
taken when the loop visits them. -/
theorem cleanUpPass_entries (c : Cache W K V) (ws : K → W) :
    (c.cleanUpPass ws).data.entries =
      c.data.entries.filter (fun e => !(e.2.isExpired (c.now (ws e.1)))) := by
  unfold Cache.cleanUpPass
  simp only []
  rw [sweep_loop_entries (fun k => c.now (ws k)) c.data.entries c.data]
  apply List.filter_congr
  intro x hx
  cases hexp : x.2.isExpired (c.now (ws x.1))
  · simp only [Bool.not_false, List.all_eq_true, Bool.or_eq_true, Bool.not_eq_true',
      decide_eq_true_eq]
    intro e he
    by_cases hk : x.1 = e.1
    · have hxe : x = e := List.inj_on_of_nodup_map c.data.nodup hx he hk
      left
      rw [← hxe]
      exact hexp
    · right
      exact hk
  · simp only [Bool.not_true, List.all_eq_false]
    exact ⟨x, hx, by simp [hexp]⟩

omit [DecidableEq K] [Inhabited V] in
/-- Real time passing leaves the number of armed timers plus waiting values
where it was or lower. -/
theorem Timer.elapse_budget (t : Timer) (dt : Duration) :
    (if (t.elapse dt).armed then 1 else 0) + (if (t.elapse dt).C then 1 else 0) ≤
      (if t.armed then 1 else 0) + (if t.C then 1 else 0) := by
  unfold Timer.elapse
  cases ha : t.armed
  · simp [ha]
  · simp only [if_true]
    split
    · simp
    · simp [ha]

omit [Inhabited V] in
/-- Along any history the sweep passes made, the armed timer and the value
waiting in its channel number one at most together: the timer of `cleanUp` is
created once and never reset. -/
theorem run_budget (events : List (Event W K V)) :
    ∀ s : Sys W K V,
      s.passes + (if s.timer.armed then 1 else 0) + (if s.timer.C then 1 else 0) ≤ 1 →
      (s.run events).passes + (if (s.run events).timer.armed then 1 else 0) +
        (if (s.run events).timer.C then 1 else 0) ≤ 1 := by
  induction events with
  | nil => intro s h; exact h
  | cons ev evs ih =>
    intro s h
    show ((s.step ev).run evs).passes + _ + _ ≤ 1
    apply ih
    cases ev with
    | elapse dt =>
      have := Timer.elapse_budget s.timer dt
      simp only [Sys.step]
      omega
    | sweeper ws pickDone =>
      simp only [Sys.step, Sys.cleanUpTurn]
      split
      · exact h
      · split
        · rename_i hc
          simp only [Bool.and_eq_true] at hc
          simp only [hc.1, if_true] at h
          simp only [Bool.false_eq_true, if_false]
          omega
        · split
          · simp only [Timer.Stop, Bool.false_eq_true, if_false]
            omega
          · exact h
    | close => exact h
    | set w key v ttl => exact h
    | delete key => exact h
    | clear => exact h

omit [Inhabited V] in
/-- However long a cache built by `New` lives and whatever is done with it,
its sweeper makes one sweep pass at most. -/
theorem New_passes_le_one (timeNow : nowProvider W) (options : List (CacheOption W K V))
    (events : List (Event W K V)) : ((New timeNow options).run events).passes ≤ 1 := by
  have h := run_budget events (New timeNow options) (by simp [New, NewTimer])
  omega

end CacheFacts

/-! ## The claims -/

section Claims

variable {W K V : Type} [DecidableEq K] [Inhabited V]

/-- C1: for every cache, key, value, clock reading `t` and `ttl > 0`, when
`Set(k, v, ttl)` runs at clock reading `t` and `Get(k)` runs right after it at
the same reading, `Get` returns `(v, true)`. -/
theorem C1_get_after_set_positive_ttl (c : Cache W K V) (w0 w1 : W) (k : K) (v : V)
    (ttl : Duration) (t : Time) (hset : c.now w0 = t)
    (hget : (c.Set w0 k v ttl).now w1 = t) (httl : 0 < ttl) :
    ((c.Set w0 k v ttl).Get w1 k).1 = (v, true) := by
  have hget2 : c.now w1 = t := hget
  have httl2 : (0 : Int) < ttl := httl
  rw [Get_Set_self, hset, hget2]
  simp only [Time.After, Time.Add, Bool.not_eq_true', decide_eq_false_iff_not, Prod.mk.injEq,
    true_and]
  omega

/-- Witness of C1: the test "it returns the value from the cache", with the
clock held at one instant. -/
theorem C1_get_after_set_positive_ttl_witness :
    (0 : Duration) < Second ∧
      ((testCache.Set ⟨0⟩ "test" 1 Second).Get ⟨0⟩ "test").1 = (1, true) :=
  ⟨by decide,
   C1_get_after_set_positive_ttl testCache ⟨0⟩ ⟨0⟩ "test" 1 Second ⟨0⟩ rfl rfl (by decide)⟩

/-- C2, refuted as stated: with `ttl = 0`, `Set` at a clock reading followed by
`Get` at the same reading returns found = true, not `(v, false)`. -/
theorem C2_counterexample_zero_ttl :
    (0 : Duration) ≤ 0 ∧ (testCacheInt.Set ⟨0⟩ 1000 1 0).now ⟨0⟩ = testCacheInt.now ⟨0⟩ ∧
      ((testCacheInt.Set ⟨0⟩ 1000 1 0).Get ⟨0⟩ 1000).1 = (1, true) ∧
      ((testCacheInt.Set ⟨0⟩ 1000 1 0).Get ⟨0⟩ 1000).1 ≠ (1, false) := by
  decide

/-- C2 as amended: when `Set(k, v, ttl)` runs at clock reading `t` and `Get(k)`
runs right after it at the same reading, `Get` returns `(v, false)` for every
`ttl < 0`, and `(v, true)` for `ttl = 0`. -/
theorem C2_get_after_set_nonpositive_ttl (c : Cache W K V) (w0 w1 : W) (k : K) (v : V)
    (ttl : Duration) (t : Time) (hset : c.now w0 = t)
    (hget : (c.Set w0 k v ttl).now w1 = t) :
    (ttl < 0 → ((c.Set w0 k v ttl).Get w1 k).1 = (v, false)) ∧
      (ttl = 0 → ((c.Set w0 k v ttl).Get w1 k).1 = (v, true)) := by
  have hget2 : c.now w1 = t := hget
  rw [Get_Set_self, hset, hget2]
  constructor
  · intro h
    have h3 : t.ns + ttl < t.ns := add_lt_iff_neg_left.2 h
    simp [Time.After, Time.Add, h3]
  · intro h
    subst h
    simp [Time.After, Time.Add]

/-- Witness of C2 as amended: the test "it returns false if the key is
expired", which sets with `-2 * time.Hour`. -/
theorem C2_get_after_set_nonpositive_ttl_witness :
    -2 * Hour < 0 ∧
      ((testCacheInt.Set ⟨0⟩ 1000 1 (-2 * Hour)).Get ⟨0⟩ 1000).1 = (1, false) :=
  ⟨by decide,
   (C2_get_after_set_nonpositive_ttl testCacheInt ⟨0⟩ ⟨0⟩ 1000 1 (-2 * Hour) ⟨0⟩ rfl rfl).1
     (by decide)⟩

/-- C3: expiry is strict. When `Set(k, v, ttl)` runs at clock reading `t0` and
`Get(k)` runs on the resulting cache at reading `t1`, `Get` returns `(v, found)`
where `found` is false exactly when `t1` is strictly after `t0 + ttl`; at
`t1 = t0 + ttl` the entry is not expired and `found` is true. -/
theorem C3_expiry_is_strict_after (c : Cache W K V) (w0 w1 : W) (k : K) (v : V)
    (ttl : Duration) (t0 t1 : Time) (hset : c.now w0 = t0)
    (hget : (c.Set w0 k v ttl).now w1 = t1) :
    ∃ found : Bool, ((c.Set w0 k v ttl).Get w1 k).1 = (v, found) ∧
      (found = false ↔ t0.ns + ttl < t1.ns) ∧
      (t1 = t0.Add ttl → found = true) := by
  have hget2 : c.now w1 = t1 := hget
  refine ⟨!(t1.After (t0.Add ttl)), ?_, ?_, ?_⟩
  · rw [Get_Set_self, hset, hget2]
  · simp [Time.After, Time.Add]
  · intro h
    simp [h, Time.After]

/-- Witness of C3: an entry set at instant 0 for one second is found at
exactly one second and not found one nanosecond later. -/
theorem C3_expiry_is_strict_after_witness :
    ((testCache.Set ⟨0⟩ "a" 1 Second).Get ⟨Second⟩ "a").1 = (1, true) ∧
      ((testCache.Set ⟨0⟩ "a" 1 Second).Get ⟨Second + 1⟩ "a").1 = (1, false) ∧
      ∃ found : Bool, ((testCache.Set ⟨0⟩ "a" 1 Second).Get ⟨Second⟩ "a").1 = (1, found) ∧
        (found = false ↔ (0 : Int) + Second < Second) ∧
        ((⟨Second⟩ : Time) = (⟨0⟩ : Time).Add Second → found = true) :=
  ⟨by decide, by decide,
   C3_expiry_is_strict_after testCache ⟨0⟩ ⟨Second⟩ "a" 1 Second ⟨0⟩ ⟨Second⟩ rfl rfl⟩

/-- C4: `Get` never changes the store. After `Get(k)` the cache is the one
before it, so `Len()` and `Keys()` are unchanged, and an entry of `k` that is
expired at the reading of the clock is still in the map after the read (which
returned its value with found = false). -/
theorem C4_get_leaves_store_unchanged (c : Cache W K V) (w : W) (k : K) :
    (c.Get w k).2 = c ∧ (c.Get w k).2.Len = c.Len ∧ (c.Get w k).2.Keys = c.Keys ∧
      ∀ e : value V, (k, e) ∈ c.data.entries → e.isExpired (c.now w) = true →
        (k, e) ∈ (c.Get w k).2.data.entries ∧ (c.Get w k).1 = (e.data, false) := by
  have h : (c.Get w k).2 = c := by
    unfold Cache.Get
    simp only []
    split <;> [rfl; (split <;> rfl)]
  refine ⟨h, by rw [h], by rw [h], ?_⟩
  intro e he hexp
  refine ⟨by rw [h]; exact he, ?_⟩
  rw [Get_result, (lookupList_eq_some_iff k e c.data.entries c.data.nodup).2 he]
  simp [hexp]

/-- Witness of C4: the entry set with `-2 * time.Hour` is expired when read and
is still in the map after the read. -/
theorem C4_get_leaves_store_unchanged_witness :
    (((testCacheInt.Set ⟨0⟩ 1000 1 (-2 * Hour)).Get ⟨0⟩ 1000).2.Len = 1) ∧
      ((1000, { data := 1, expiredAt := ⟨-2 * Hour⟩ }) ∈
          ((testCacheInt.Set ⟨0⟩ 1000 1 (-2 * Hour)).Get ⟨0⟩ 1000).2.data.entries ∧
        ((testCacheInt.Set ⟨0⟩ 1000 1 (-2 * Hour)).Get ⟨0⟩ 1000).1 = (1, false)) :=
  ⟨by decide,
   (C4_get_leaves_store_unchanged (testCacheInt.Set ⟨0⟩ 1000 1 (-2 * Hour)) ⟨0⟩ 1000).2.2.2
     { data := 1, expiredAt := ⟨-2 * Hour⟩ } (by decide) (by decide)⟩

/-- C5: for every cache and every key that is not in the map, `Get` returns the
zero value of `V` and false in every environment, hence at every clock reading;
this covers every key of a cache just built by `New` with options that leave
the map alone, as the package's two options do. -/
theorem C5_get_absent_key (c : Cache W K V) (w : W) (k : K) :
    (k ∉ c.Keys → (c.Get w k).1 = (default, false)) ∧
      (∀ (timeNow : nowProvider W) (options : List (CacheOption W K V)),
        (∀ o ∈ options, ∀ c0 : Cache W K V, (o c0).data = c0.data) →
          ((New timeNow options).c.Get w k).1 = (default, false)) ∧
      (∀ (now : nowProvider W) (c0 : Cache W K V), (WithNowProvider now c0).data = c0.data) ∧
      (∀ (d : Duration) (c0 : Cache W K V), (WithCleanUpInterval d c0).data = c0.data) := by
  refine ⟨?_, ?_, fun _ _ => rfl, fun _ _ => rfl⟩
  · intro h
    rw [Keys_eq] at h
    exact Get_of_not_mem c w k h
  · intro timeNow options h
    apply Get_of_not_mem
    rw [New_data timeNow options h]
    simp

/-- Witness of C5: the test "it returns false if the key is not in the cache". -/
theorem C5_get_absent_key_witness :
    (1 : Int) ∉ testCacheInt.Keys ∧ (testCacheInt.Get ⟨0⟩ 1).1 = (0, false) :=
  ⟨by decide, (C5_get_absent_key testCacheInt ⟨0⟩ 1).1 (by decide)⟩

omit [Inhabited V] in
/-- C6: `Set` on a key that is in the map replaces its entry. After
`Set(k, v2, ttl2)` at clock reading `t` the map holds for `k` the entry with
value `v2` and expiry `t + ttl2` and no other entry, and `Len()` is what it was
before the `Set`. -/
theorem C6_set_existing_key_replaces (c : Cache W K V) (w : W) (k : K) (v2 : V)
    (ttl2 : Duration) (t : Time) (hk : k ∈ c.Keys) (ht : c.now w = t) :
    (∀ e : value V, (k, e) ∈ (c.Set w k v2 ttl2).data.entries ↔
        e = { data := v2, expiredAt := t.Add ttl2 }) ∧
      (c.Set w k v2 ttl2).Len = c.Len := by
  constructor
  · intro e
    rw [mem_Set_entries_self, ht]
  · rw [Keys_eq] at hk
    simp only [Cache.Len, GoMap.len, Cache.Set, GoMap.assign, length_assignList, if_pos hk]

/-- Witness of C6: the test "it sets the value with the correct expiration time
two times". -/
theorem C6_set_existing_key_replaces_witness :
    (1 : Int) ∈ (testCacheInt.Set ⟨0⟩ 1 1 Second).Keys ∧
      ((testCacheInt.Set ⟨0⟩ 1 1 Second).Set ⟨7⟩ 1 2 Second).Len = 1 ∧
      ((testCacheInt.Set ⟨0⟩ 1 1 Second).Set ⟨7⟩ 1 2 Second).data.entries =
        [(1, { data := 2, expiredAt := ⟨Second + 7⟩ })] ∧
      ((testCacheInt.Set ⟨0⟩ 1 1 Second).Set ⟨7⟩ 1 2 Second).Len =
        (testCacheInt.Set ⟨0⟩ 1 1 Second).Len :=
  ⟨by decide, by decide, by decide,
   (C6_set_existing_key_replaces (testCacheInt.Set ⟨0⟩ 1 1 Second) ⟨7⟩ 1 2 Second ⟨7⟩
     (by decide) rfl).2⟩

/-- C7: `Delete` removes a key unconditionally. After `Delete(k)` the key is
not in the map and `Get(k)` returns the zero value and false in every
environment; when `k` was in the map `Len()` has gone down by exactly one, and
when it was not, `Delete(k)` returns the cache unchanged. -/
theorem C7_delete_removes_key (c : Cache W K V) (k : K) :
    k ∉ (c.Delete k).Keys ∧
      (∀ w : W, ((c.Delete k).Get w k).1 = (default, false)) ∧
      (k ∈ c.Keys → (c.Delete k).Len + 1 = c.Len) ∧
      (k ∉ c.Keys → c.Delete k = c) := by
  have hnot : k ∉ (c.Delete k).data.entries.map Prod.fst := by
    simp only [Cache.Delete, GoMap.delete, mem_keys_deleteList]
    exact fun h => h.2 rfl
  refine ⟨by rw [Keys_eq]; exact hnot, fun w => Get_of_not_mem _ w k hnot, ?_, ?_⟩
  · intro hk
    rw [Keys_eq] at hk
    exact length_deleteList_of_mem k c.data.entries c.data.nodup hk
  · intro hk
    rw [Keys_eq] at hk
    exact Delete_of_not_mem c k hk

/-- Witness of C7: deleting the one key of a cache, and deleting a key that a
fresh cache does not hold. -/
theorem C7_delete_removes_key_witness :
    ((1 : Int) ∈ (testCacheInt.Set ⟨0⟩ 1 1 Second).Keys ∧
        ((testCacheInt.Set ⟨0⟩ 1 1 Second).Delete 1).Len + 1 =
          (testCacheInt.Set ⟨0⟩ 1 1 Second).Len) ∧
      ((1 : Int) ∉ testCacheInt.Keys ∧ testCacheInt.Delete 1 = testCacheInt) :=
  ⟨⟨by decide,
    (C7_delete_removes_key (testCacheInt.Set ⟨0⟩ 1 1 Second) 1).2.2.1 (by decide)⟩,
   ⟨by decide, (C7_delete_removes_key testCacheInt 1).2.2.2 (by decide)⟩⟩

/-- C8: whatever the cache held, after `Clear()` `Len()` is 0, `Keys()` is the
empty sequence and `Get(k)` returns the zero value and false for every key in
every environment. -/
theorem C8_clear_empties_store (c : Cache W K V) :
    c.Clear.Len = 0 ∧ c.Clear.Keys = [] ∧
      ∀ (w : W) (k : K), (c.Clear.Get w k).1 = (default, false) := by
  refine ⟨rfl, rfl, fun w k => ?_⟩
  apply Get_of_not_mem
  simp [Cache.Clear, GoMap.make]

omit [Inhabited V] in
/-- C9: one sweep pass removes exactly the expired entries. When every reading
of the clock during the pass is `t`, the map after the pass holds the entries
of the map before it whose expiry `t` is not strictly after, unchanged, and
nothing else; and after `Set(k, v, ttl)` at reading `t0` with `t0 + ttl < t`,
one such pass leaves `k` out of `Keys()` and makes `Len()` smaller. -/
theorem C9_sweep_removes_exactly_expired (c : Cache W K V) (ws : K → W) (t : Time)
    (hclock : ∀ k : K, c.now (ws k) = t) :
    (c.cleanUpPass ws).data.entries =
        c.data.entries.filter (fun e => !(t.After e.2.expiredAt)) ∧
      (∀ e : K × value V, e ∈ (c.cleanUpPass ws).data.entries ↔
        e ∈ c.data.entries ∧ ¬ e.2.expiredAt.ns < t.ns) ∧
      (∀ (w0 : W) (k : K) (v : V) (ttl : Duration), (c.now w0).ns + ttl < t.ns →
        k ∉ ((c.Set w0 k v ttl).cleanUpPass ws).Keys ∧
          ((c.Set w0 k v ttl).cleanUpPass ws).Len < (c.Set w0 k v ttl).Len) := by
  have hpass : ∀ c2 : Cache W K V, (∀ k : K, c2.now (ws k) = t) →
      (c2.cleanUpPass ws).data.entries =
        c2.data.entries.filter (fun e => !(t.After e.2.expiredAt)) := by
    intro c2 h2
    rw [cleanUpPass_entries]
    apply List.filter_congr
    intro x _
    rw [h2 x.1]
    rfl
  refine ⟨hpass c hclock, ?_, ?_⟩
  · intro e
    rw [hpass c hclock, List.mem_filter]
    simp [Time.After]
  · intro w0 k v ttl hlt
    have hc2 : ∀ k2 : K, (c.Set w0 k v ttl).now (ws k2) = t := hclock
    have hnew : (k, ({ data := v, expiredAt := (c.now w0).Add ttl } : value V)) ∈
        (c.Set w0 k v ttl).data.entries := (mem_Set_entries_self c w0 k v ttl _).2 rfl
    constructor
    · rw [Keys_eq, hpass _ hc2]
      intro hmem
      obtain ⟨⟨k2, e⟩, he, hk⟩ := List.mem_map.1 hmem
      simp only at hk
      subst hk
      rw [List.mem_filter] at he
      have heq := (mem_Set_entries_self c w0 k2 v ttl e).1 he.1
      have hexp := he.2
      rw [heq] at hexp
      simp [Time.After, Time.Add, hlt] at hexp
    · simp only [Cache.Len, GoMap.len]
      rw [hpass _ hc2, List.length_filter_lt_length_iff_exists]
      exact ⟨_, hnew, by simp [Time.After, Time.Add, hlt]⟩

/-- Witness of C9: two entries set at instant 0, for one and for three
seconds; a pass at two seconds removes the first and keeps the second. -/
theorem C9_sweep_removes_exactly_expired_witness :
    (((testCache.Set ⟨0⟩ "a" 1 Second).Set ⟨0⟩ "b" 2 (3 * Second)).cleanUpPass
        (fun _ => ⟨2 * Second⟩)).data.entries =
      [("b", { data := 2, expiredAt := ⟨3 * Second⟩ })] ∧
    (((testCache.Set ⟨0⟩ "a" 1 Second).Set ⟨0⟩ "b" 2 (3 * Second)).cleanUpPass
        (fun _ => ⟨2 * Second⟩)).data.entries =
      ((testCache.Set ⟨0⟩ "a" 1 Second).Set ⟨0⟩ "b" 2 (3 * Second)).data.entries.filter
        (fun e => !((⟨2 * Second⟩ : Time).After e.2.expiredAt)) ∧
    ("a" ∉ ((testCache.Set ⟨0⟩ "a" 1 Second).cleanUpPass (fun _ => ⟨2 * Second⟩)).Keys ∧
      ((testCache.Set ⟨0⟩ "a" 1 Second).cleanUpPass (fun _ => ⟨2 * Second⟩)).Len <
        (testCache.Set ⟨0⟩ "a" 1 Second).Len) :=
  ⟨by decide,
   (C9_sweep_removes_exactly_expired
     ((testCache.Set ⟨0⟩ "a" 1 Second).Set ⟨0⟩ "b" 2 (3 * Second))
     (fun _ => ⟨2 * Second⟩) ⟨2 * Second⟩ (fun _ => rfl)).1,
   (C9_sweep_removes_exactly_expired testCache (fun _ => ⟨2 * Second⟩) ⟨2 * Second⟩
     (fun _ => rfl)).2.2 ⟨0⟩ "a" 1 Second (by decide)⟩

/-- C10, evaluated on the code: for the cache `New[string, int]()` three cleanup
intervals elapse with `done` open and the sweeper scheduled after each, yet one
sweep pass has occurred, not three, and the entry set after that pass, expired
since the clock passed six seconds, is still in the map after the later
intervals. -/
theorem C10_sweeper_runs_one_pass_only :
    ((New (fun w => w) []).run threeIntervals).done = false ∧
      ((New (fun w => w) []).run threeIntervals).running = true ∧
      ((New (fun w => w) []).run threeIntervals).passes = 1 ∧
      ((New (fun w => w) []).run threeIntervals).passes ≠ 3 ∧
      "a" ∈ ((New (fun w => w) []).run threeIntervals).c.Keys ∧
      (((New (fun w => w) []).run threeIntervals).c.Get ⟨15 * Second⟩ "a").1 = (1, false) := by
  decide

end Claims

/-! ## Further facts: lookups after a delete and after a sweep pass -/

section SweepFacts

variable {W K V : Type} [DecidableEq K] [Inhabited V]

omit [DecidableEq K] [Inhabited V] in
/-- Two maps with the same entries are the same map. -/
theorem GoMap.eq_of_entries {E : Type} (m1 m2 : GoMap K E) (h : m1.entries = m2.entries) :
    m1 = m2 := by
  obtain ⟨e1, n1⟩ := m1
  obtain ⟨e2, n2⟩ := m2
  simp only at h
  subst h
  rfl

omit [Inhabited V] in
/-- Looking a key up after filtering a list without repeated keys: the entry
found before, when the filter keeps it. -/
theorem lookupList_filter {E : Type} (p : K × E → Bool) (key : K) (l : List (K × E))
    (hn : (l.map Prod.fst).Nodup) :
    lookupList key (l.filter p) = (lookupList key l).filter (fun e => p (key, e)) := by
  induction l with
  | nil => simp [lookupList]
  | cons x xs ih =>
    rw [List.map_cons, List.nodup_cons] at hn
    by_cases hx : x.1 = key
    · have hxeq : (key, x.2) = x := by rw [← hx]
      have hnone : lookupList key (xs.filter p) = none := by
        rw [lookupList_eq_none_iff]
        intro hmem
        have hsub : (xs.filter p).map Prod.fst ⊆ xs.map Prod.fst :=
          ((List.filter_sublist xs).map Prod.fst).subset
        exact hn.1 (hx ▸ hsub hmem)
      cases hp : p x
      · rw [List.filter_cons_of_neg (by simp [hp]), hnone]
        simp [lookupList, hx, Option.filter, hxeq, hp]
      · rw [List.filter_cons_of_pos hp]
        simp [lookupList, hx, Option.filter, hxeq, hp]
    · cases hp : p x
      · rw [List.filter_cons_of_neg (by simp [hp]), ih hn.2]
        simp [lookupList, hx]
      · rw [List.filter_cons_of_pos hp]
        simp [lookupList, hx, ih hn.2]

omit [Inhabited V] in
/-- Deleting a key does not change the lookup of another key. -/
theorem lookupList_deleteList_ne {E : Type} (key key2 : K) (l : List (K × E))
    (h : key2 ≠ key) : lookupList key2 (deleteList key l) = lookupList key2 l := by
  induction l with
  | nil => simp [deleteList, lookupList]
  | cons x xs ih =>
    unfold deleteList at ih ⊢
    by_cases hx : x.1 = key
    · have hx2 : ¬ x.1 = key2 := fun h2 => h (h2 ▸ hx)
      rw [List.filter_cons_of_neg (by simp [hx]), ih]
      simp [lookupList, hx2]
    · rw [List.filter_cons_of_pos (by simp [hx])]
      by_cases hx2 : x.1 = key2
      · simp only [lookupList, if_pos hx2]
      · simp only [lookupList, if_neg hx2]
        exact ih

omit [Inhabited V] in
/-- The lookup of a key after a sweep pass: the entry found before the pass,
when it is not expired at the reading taken for that key. -/
theorem lookupList_cleanUpPass (c : Cache W K V) (ws : K → W) (key : K) :
    lookupList key (c.cleanUpPass ws).data.entries =
      (lookupList key c.data.entries).filter
        (fun e => !(e.isExpired (c.now (ws key)))) := by
  rw [cleanUpPass_entries, lookupList_filter _ key c.data.entries c.data.nodup]

/-- What `Get` returns after a sweep pass, when the clock of the read shows
what it showed when the pass visited the key: the value with true for an entry
that is not expired, the zero value with false otherwise. -/
theorem Get_cleanUpPass (c : Cache W K V) (ws : K → W) (w : W) (key : K)
    (hw : c.now (ws key) = c.now w) :
    ((c.cleanUpPass ws).Get w key).1 =
      match lookupList key c.data.entries with
      | some v => if v.isExpired (c.now w) then (default, false) else (v.data, true)
      | none => (default, false) := by
  rw [Get_result, lookupList_cleanUpPass, hw]
  have hnow : (c.cleanUpPass ws).now w = c.now w := rfl
  rw [hnow]
  cases hl : lookupList key c.data.entries with
  | none => simp [Option.filter]
  | some v =>
    cases he : v.isExpired (c.now w) <;> simp [Option.filter, he]

omit [DecidableEq K] [Inhabited V] in
/-- The entries of a map fall into the expired and the unexpired ones. -/
theorem length_split_expired (c : Cache W K V) (t : Time) :
    c.data.entries.length =
      (c.data.entries.filter (fun e => e.2.isExpired t)).length +
        (c.data.entries.filter (fun e => !(e.2.isExpired t))).length := by
  induction c.data.entries with
  | nil => rfl
  | cons x xs ih =>
    cases hx : x.2.isExpired t
    · simp only [List.filter_cons, hx, Bool.not_false, if_true, Bool.false_eq_true, if_false,
        List.length_cons]
      omega
    · simp only [List.filter_cons, hx, Bool.not_true, if_true, Bool.false_eq_true, if_false,
        List.length_cons]
      omega

omit [Inhabited V] in
/-- A key is in `Keys()` exactly when the lookup finds an entry. -/
theorem mem_Keys_iff_lookup (c : Cache W K V) (key : K) :
    key ∈ c.Keys ↔ lookupList key c.data.entries ≠ none := by
  rw [Keys_eq, Ne, lookupList_eq_none_iff, not_not]

omit [DecidableEq K] [Inhabited V] in
/-- Two caches with the same fields are the same cache. -/
theorem Cache.eq_of_fields (c1 c2 : Cache W K V) (hd : c1.data.entries = c2.data.entries)
    (hn : c1.nowProvider = c2.nowProvider) (hi : c1.cleanUpInterval = c2.cleanUpInterval) :
    c1 = c2 := by
  obtain ⟨d1, n1, i1⟩ := c1
  obtain ⟨d2, n2, i2⟩ := c2
  simp only at hd hn hi
  have := GoMap.eq_of_entries d1 d2 hd
  subst this hn hi
  rfl

omit [DecidableEq K] [Inhabited V] in
/-- Applying a list of options: the options after the last one that sets a
field leave what it set. -/
theorem foldl_options_last {F : Type} (field : Cache W K V → F) (o : CacheOption W K V)
    (x : F) (ho : ∀ c0 : Cache W K V, field (o c0) = x)
    (pre post : List (CacheOption W K V))
    (hpost : ∀ o2 ∈ post, ∀ c0 : Cache W K V, field (o2 c0) = field c0) (c : Cache W K V) :
    field ((pre ++ o :: post).foldl
      (fun (c : Cache W K V) (option : CacheOption W K V) => option c) c) = x := by
  rw [List.foldl_append, List.foldl_cons]
  have key : ∀ (l : List (CacheOption W K V)) (c1 : Cache W K V),
      (∀ o2 ∈ l, ∀ c0 : Cache W K V, field (o2 c0) = field c0) →
      field (l.foldl (fun (c : Cache W K V) (option : CacheOption W K V) => option c) c1)
        = field c1 := by
    intro l
    induction l with
    | nil => intro c1 _; rfl
    | cons o3 os ih =>
      intro c1 hl
      rw [List.foldl_cons, ih (o3 c1) (fun o2 ho2 => hl o2 (List.mem_cons_of_mem o3 ho2))]
      exact hl o3 (List.mem_cons_self o3 os) c1
  rw [key post _ hpost]
  exact ho _

end SweepFacts

/-! ## The claims, continued -/

section MoreClaims

variable {W K V : Type} [DecidableEq K] [Inhabited V]

/-- C11: `Len()` is the raw count of map entries. It equals the number of
distinct keys in the map, it reads no clock, and at every instant it is the
number of expired entries plus the number of unexpired ones; on an empty cache,
after `Set(k, v, ttl)` with `ttl < 0`, `Len()` is 1 although `Get(k)`, run when
the clock has not gone back, returns found = false. -/
theorem C11_len_counts_expired_entries (c : Cache W K V) :
    c.Len = c.Keys.toFinset.card ∧
      (∀ t : Time, c.Len =
        (c.data.entries.filter (fun e => e.2.isExpired t)).length +
          (c.data.entries.filter (fun e => !(e.2.isExpired t))).length) ∧
      (∀ (w0 w1 : W) (k : K) (v : V) (ttl : Duration),
        c.data.entries = [] → ttl < 0 → (c.now w0).ns ≤ (c.now w1).ns →
          (c.Set w0 k v ttl).Len = 1 ∧ ((c.Set w0 k v ttl).Get w1 k).1 = (v, false)) := by
  refine ⟨?_, fun t => length_split_expired c t, ?_⟩
  · rw [Keys_eq, List.toFinset_card_of_nodup c.data.nodup, List.length_map]
    rfl
  · intro w0 w1 k v ttl hempty httl hclock
    constructor
    · simp [Cache.Len, GoMap.len, Cache.Set, GoMap.assign, hempty, assignList]
    · rw [Get_Set_self]
      have h1 : (c.now w0).ns + ttl < (c.now w0).ns := add_lt_iff_neg_left.2 httl
      have h2 : (c.now w0).ns + ttl < (c.now w1).ns := lt_of_lt_of_le h1 hclock
      simp [Time.After, Time.Add, h2]

/-- Witness of C11: the test "it returns false if the key is expired", on the
fresh cache, with `Len()` read after the `Set`. -/
theorem C11_len_counts_expired_entries_witness :
    testCacheInt.data.entries = [] ∧ -2 * Hour < 0 ∧
      (testCacheInt.Set ⟨0⟩ 1000 1 (-2 * Hour)).Len = 1 ∧
      ((testCacheInt.Set ⟨0⟩ 1000 1 (-2 * Hour)).Get ⟨0⟩ 1000).1 = (1, false) :=
  ⟨rfl, by decide,
   (C11_len_counts_expired_entries testCacheInt).2.2 ⟨0⟩ ⟨0⟩ 1000 1 (-2 * Hour) rfl
     (by decide) (by decide)⟩

/-- C12: `Keys()` returns every key of the map exactly once and nothing else.
The sequence has no repeated key, its length is `Len()`, a key is in it exactly
when the map has an entry for it (exactly when the comma-ok lookup finds it),
each such key occurs once, and the key of an entry that is expired at the
reading of the clock is in it. -/
theorem C12_keys_lists_each_key_once (c : Cache W K V) :
    c.Keys.Nodup ∧ c.Keys.length = c.Len ∧
      (∀ k : K, k ∈ c.Keys ↔ ∃ e : value V, (k, e) ∈ c.data.entries) ∧
      (∀ k : K, k ∈ c.Keys ↔ (c.data.index k).2 = true) ∧
      (∀ k : K, (∃ e : value V, (k, e) ∈ c.data.entries) → c.Keys.count k = 1) ∧
      (∀ (w : W) (k : K) (e : value V), (k, e) ∈ c.data.entries →
        e.isExpired (c.now w) = true → k ∈ c.Keys) := by
  have hmem : ∀ k : K, k ∈ c.Keys ↔ ∃ e : value V, (k, e) ∈ c.data.entries := by
    intro k
    rw [Keys_eq, List.mem_map]
    constructor
    · rintro ⟨⟨k2, e⟩, he, rfl⟩
      exact ⟨e, he⟩
    · rintro ⟨e, he⟩
      exact ⟨(k, e), he, rfl⟩
  have hnodup : c.Keys.Nodup := by
    rw [Keys_eq]
    exact c.data.nodup
  refine ⟨hnodup, ?_, hmem, ?_, ?_, ?_⟩
  · rw [Keys_eq, List.length_map]
    rfl
  · intro k
    rw [Keys_eq]
    unfold GoMap.index
    cases hl : lookupList k c.data.entries with
    | none =>
      have := (lookupList_eq_none_iff k c.data.entries).1 hl
      simp [this]
    | some e =>
      have hin : (k, e) ∈ c.data.entries :=
        (lookupList_eq_some_iff k e c.data.entries c.data.nodup).1 hl
      have : k ∈ c.data.entries.map Prod.fst := List.mem_map.2 ⟨(k, e), hin, rfl⟩
      simp [this]
  · intro k hk
    exact List.count_eq_one_of_mem hnodup ((hmem k).2 hk)
  · intro w k e he _
    exact (hmem k).2 ⟨e, he⟩

/-- Witness of C12: a cache holding an expired entry and a live one; `Keys()`
lists both keys. -/
theorem C12_keys_lists_each_key_once_witness :
    ((testCache.Set ⟨0⟩ "old" 1 (-2 * Hour)).Set ⟨0⟩ "new" 2 Second).Keys = ["old", "new"] ∧
      "old" ∈ ((testCache.Set ⟨0⟩ "old" 1 (-2 * Hour)).Set ⟨0⟩ "new" 2 Second).Keys :=
  ⟨by decide,
   (C12_keys_lists_each_key_once
     ((testCache.Set ⟨0⟩ "old" 1 (-2 * Hour)).Set ⟨0⟩ "new" 2 Second)).2.2.2.2.2 ⟨0⟩ "old"
     { data := 1, expiredAt := ⟨-2 * Hour⟩ } (by decide) (by decide)⟩

/-- C13: `Get` and the sweeper agree about expiry. When the clock reads `t`
throughout a sweep pass and at a `Get`, a key of the map is removed by the pass
exactly when `Get` of it on the cache before the pass returns found = false;
and `Get` on the cache after the pass returns found = true for every key still
in `Keys()`. -/
theorem C13_get_and_sweep_agree (c : Cache W K V) (ws : K → W) (w : W) (t : Time) (k : K)
    (hclock : ∀ k2 : K, c.now (ws k2) = t) (hw : c.now w = t) (hk : k ∈ c.Keys) :
    (k ∉ (c.cleanUpPass ws).Keys ↔ (c.Get w k).1.2 = false) ∧
      (∀ k2 : K, k2 ∈ (c.cleanUpPass ws).Keys →
        ((c.cleanUpPass ws).Get w k2).1.2 = true) := by
  constructor
  · rw [mem_Keys_iff_lookup] at hk
    rw [mem_Keys_iff_lookup, lookupList_cleanUpPass, Get_result, hclock k, hw]
    cases hl : lookupList k c.data.entries with
    | none => exact absurd hl hk
    | some e => cases he : e.isExpired t <;> simp [Option.filter, he]
  · intro k2 hk2
    rw [mem_Keys_iff_lookup, lookupList_cleanUpPass, hclock k2] at hk2
    rw [Get_cleanUpPass c ws w k2 (by rw [hclock k2, hw]), hw]
    cases hl : lookupList k2 c.data.entries with
    | none => simp [hl, Option.filter] at hk2
    | some e =>
      cases he : e.isExpired t
      · simp [he]
      · simp [hl, Option.filter, he] at hk2

/-- Witness of C13: of an expired and a live entry, a pass at two seconds
removes the first, for which `Get` returned false, and keeps the second. -/
theorem C13_get_and_sweep_agree_witness :
    ("a" ∉ (((testCache.Set ⟨0⟩ "a" 1 Second).Set ⟨0⟩ "b" 2 (3 * Second)).cleanUpPass
          (fun _ => ⟨2 * Second⟩)).Keys ↔
        (((testCache.Set ⟨0⟩ "a" 1 Second).Set ⟨0⟩ "b" 2 (3 * Second)).Get
          ⟨2 * Second⟩ "a").1.2 = false) ∧
      ((((testCache.Set ⟨0⟩ "a" 1 Second).Set ⟨0⟩ "b" 2 (3 * Second)).cleanUpPass
          (fun _ => ⟨2 * Second⟩)).Get ⟨2 * Second⟩ "b").1 = (2, true) :=
  ⟨(C13_get_and_sweep_agree ((testCache.Set ⟨0⟩ "a" 1 Second).Set ⟨0⟩ "b" 2 (3 * Second))
      (fun _ => ⟨2 * Second⟩) ⟨2 * Second⟩ ⟨2 * Second⟩ "a" (fun _ => rfl) rfl (by decide)).1,
   by decide⟩

omit [DecidableEq K] [Inhabited V] in
/-- C15: construction options. `New` with no option gives an empty cache with
a cleanup interval of five seconds and the default clock; `New` with
`WithCleanUpInterval(d)` gives interval `d` (which the sweeper's timer takes)
and the default clock; `New` with `WithNowProvider(f)` gives a cache whose
`now()` returns what `f` returns, and interval five seconds; and in a longer
list of options the last option that sets a field decides it. -/
theorem C15_construction_options (timeNow : nowProvider W) :
    ((New timeNow [] : Sys W K V).c.data.entries = [] ∧
        (New timeNow [] : Sys W K V).c.cleanUpInterval = 5 * Second ∧
        (New timeNow [] : Sys W K V).c.nowProvider = timeNow) ∧
      (∀ d : Duration,
        (New timeNow [WithCleanUpInterval d] : Sys W K V).c.cleanUpInterval = d ∧
          (New timeNow [WithCleanUpInterval d] : Sys W K V).timer = NewTimer d ∧
          (New timeNow [WithCleanUpInterval d] : Sys W K V).c.nowProvider = timeNow) ∧
      (∀ f : nowProvider W,
        (∀ w : W, (New timeNow [WithNowProvider f] : Sys W K V).c.now w = f w) ∧
          (New timeNow [WithNowProvider f] : Sys W K V).c.cleanUpInterval = 5 * Second) ∧
      (∀ (pre post : List (CacheOption W K V)) (d : Duration),
        (∀ o ∈ post, ∀ c0 : Cache W K V, (o c0).cleanUpInterval = c0.cleanUpInterval) →
          (New timeNow (pre ++ WithCleanUpInterval d :: post)).c.cleanUpInterval = d) ∧
      (∀ (pre post : List (CacheOption W K V)) (f : nowProvider W),
        (∀ o ∈ post, ∀ c0 : Cache W K V, (o c0).nowProvider = c0.nowProvider) →
          (New timeNow (pre ++ WithNowProvider f :: post)).c.nowProvider = f) := by
  refine ⟨⟨rfl, rfl, rfl⟩, fun d => ⟨rfl, rfl, rfl⟩, fun f => ⟨fun w => rfl, rfl⟩, ?_, ?_⟩
  · intro pre post d hpost
    exact foldl_options_last (fun c => c.cleanUpInterval) (WithCleanUpInterval d) d
      (fun _ => rfl) pre post hpost _
  · intro pre post f hpost
    exact foldl_options_last (fun c => c.nowProvider) (WithNowProvider f) f
      (fun _ => rfl) pre post hpost _

/-- Witness of C15: the tests "it sets the clean up interval" and "it sets the
now provider", and two interval options followed by a clock option. -/
theorem C15_construction_options_witness :
    (New (fun w => w) [WithCleanUpInterval Second] : Sys Time Int Int).c.cleanUpInterval
        = Second ∧
      (New (fun w => w) [WithNowProvider (fun _ => ⟨2021⟩)] : Sys Time Int Int).c.now ⟨0⟩
        = ⟨2021⟩ ∧
      (New (fun w => w)
        ([WithCleanUpInterval Second] ++
          WithCleanUpInterval Hour :: [WithNowProvider (fun _ => ⟨2021⟩)]) :
            Sys Time Int Int).c.cleanUpInterval = Hour :=
  ⟨rfl, rfl,
   (C15_construction_options (fun w => w)).2.2.2.1 [WithCleanUpInterval Second]
     [WithNowProvider (fun _ => ⟨2021⟩)] Hour
     (fun o ho c0 => by
       rw [List.mem_singleton] at ho
       subst ho
       rfl)⟩

omit [Inhabited V] in
/-- C16: `Set` on a key that is not in the map adds exactly one entry. For
every `ttl`, of any sign, `Len()` after the `Set` is `Len()` before it plus one
and the key is in `Keys()`; on a cache just built by `New` with options that
leave the map alone, `Len()` is 1 after one `Set`. -/
theorem C16_set_absent_key_adds_one (c : Cache W K V) (w : W) (k : K) (v : V)
    (ttl : Duration) :
    (k ∉ c.Keys → (c.Set w k v ttl).Len = c.Len + 1 ∧ k ∈ (c.Set w k v ttl).Keys) ∧
      (∀ (timeNow : nowProvider W) (options : List (CacheOption W K V)),
        (∀ o ∈ options, ∀ c0 : Cache W K V, (o c0).data = c0.data) →
          ((New timeNow options).c.Set w k v ttl).Len = 1) := by
  have hlen : ∀ c2 : Cache W K V, k ∉ c2.data.entries.map Prod.fst →
      (c2.Set w k v ttl).Len = c2.Len + 1 := by
    intro c2 h2
    simp only [Cache.Len, GoMap.len, Cache.Set, GoMap.assign, length_assignList, if_neg h2]
  constructor
  · intro hk
    rw [Keys_eq] at hk
    refine ⟨hlen c hk, ?_⟩
    rw [mem_Keys_iff_lookup]
    simp only [Cache.Set, GoMap.assign, lookupList_assignList_self]
    exact Option.some_ne_none _
  · intro timeNow options h
    have hempty := New_data timeNow options h
    rw [hlen _ (by rw [hempty]; simp)]
    simp [Cache.Len, GoMap.len, hempty]

/-- Witness of C16: the test "it sets a value in the cache". -/
theorem C16_set_absent_key_adds_one_witness :
    (1 : Int) ∉ testCacheInt.Keys ∧
      (testCacheInt.Set ⟨0⟩ 1 1 Second).Len = testCacheInt.Len + 1 ∧
      (1 : Int) ∈ (testCacheInt.Set ⟨0⟩ 1 1 Second).Keys ∧
      (testCacheInt.Set ⟨0⟩ 1 1 Second).Len = 1 :=
  ⟨by decide,
   ((C16_set_absent_key_adds_one testCacheInt ⟨0⟩ 1 1 Second).1 (by decide)).1,
   ((C16_set_absent_key_adds_one testCacheInt ⟨0⟩ 1 1 Second).1 (by decide)).2,
   by decide⟩

/-- C17: `Set` and `Delete` touch only their own key. For distinct keys `k` and
`k2`, what `Get(k2)` returns in an environment, value and found flag, is the
same after `Set(k, v, ttl)` as before it, and the same after `Delete(k)` as
before it. -/
theorem C17_set_and_delete_touch_own_key (c : Cache W K V) (w w2 : W) (k k2 : K) (v : V)
    (ttl : Duration) (hne : k2 ≠ k) :
    ((c.Set w k v ttl).Get w2 k2).1 = (c.Get w2 k2).1 ∧
      ((c.Delete k).Get w2 k2).1 = (c.Get w2 k2).1 := by
  constructor
  · rw [Get_result, Get_result]
    simp only [Cache.Set, GoMap.assign, lookupList_assignList_ne k k2 _ _ hne]
    rfl
  · rw [Get_result, Get_result]
    simp only [Cache.Delete, GoMap.delete, lookupList_deleteList_ne k k2 _ hne]
    rfl

/-- Witness of C17: with "b" in the cache, setting "a" and deleting "a" leave
what `Get("b")` returns. -/
theorem C17_set_and_delete_touch_own_key_witness :
    "b" ≠ "a" ∧
      (((testCache.Set ⟨0⟩ "b" 2 Second).Set ⟨1⟩ "a" 1 Second).Get ⟨5⟩ "b").1 = (2, true) ∧
      (((testCache.Set ⟨0⟩ "b" 2 Second).Set ⟨1⟩ "a" 1 Second).Get ⟨5⟩ "b").1 =
        ((testCache.Set ⟨0⟩ "b" 2 Second).Get ⟨5⟩ "b").1 :=
  ⟨by decide, by decide,
   (C17_set_and_delete_touch_own_key (testCache.Set ⟨0⟩ "b" 2 Second) ⟨1⟩ ⟨5⟩ "a" "b" 1
     Second (by decide)).1⟩

omit [Inhabited V] in
/-- C18: a sweep pass is idempotent and never grows the store. When the clock
reads `t` throughout, a second pass returns the cache of the first, `Len()`
after a pass is at most `Len()` before it, and the two are equal exactly when
no entry is expired at `t`. -/
theorem C18_sweep_idempotent_and_shrinking (c : Cache W K V) (ws : K → W) (t : Time)
    (hclock : ∀ k : K, c.now (ws k) = t) :
    (c.cleanUpPass ws).cleanUpPass ws = c.cleanUpPass ws ∧
      (c.cleanUpPass ws).Len ≤ c.Len ∧
      ((c.cleanUpPass ws).Len = c.Len ↔
        ∀ e ∈ c.data.entries, e.2.isExpired t = false) := by
  have hfilter : (c.cleanUpPass ws).data.entries =
      c.data.entries.filter (fun e => !(e.2.isExpired t)) := by
    rw [cleanUpPass_entries]
    apply List.filter_congr
    intro x _
    rw [hclock x.1]
  refine ⟨?_, ?_, ?_⟩
  · refine Cache.eq_of_fields ((c.cleanUpPass ws).cleanUpPass ws) (c.cleanUpPass ws) ?_ rfl rfl
    rw [cleanUpPass_entries]
    apply List.filter_eq_self.2
    intro a ha
    rw [hfilter, List.mem_filter] at ha
    have hnow : (c.cleanUpPass ws).now (ws a.1) = t := hclock a.1
    rw [hnow]
    exact ha.2
  · simp only [Cache.Len, GoMap.len, hfilter]
    exact List.length_filter_le _ _
  · simp only [Cache.Len, GoMap.len, hfilter]
    rw [List.filter_length_eq_length]
    simp

/-- Witness of C18: the pass at two seconds over an expired and a live entry,
run twice. -/
theorem C18_sweep_idempotent_and_shrinking_witness :
    ((((testCache.Set ⟨0⟩ "a" 1 Second).Set ⟨0⟩ "b" 2 (3 * Second)).cleanUpPass
          (fun _ => ⟨2 * Second⟩)).cleanUpPass (fun _ => ⟨2 * Second⟩)).data.entries =
        [("b", { data := 2, expiredAt := ⟨3 * Second⟩ })] ∧
      (((testCache.Set ⟨0⟩ "a" 1 Second).Set ⟨0⟩ "b" 2 (3 * Second)).cleanUpPass
          (fun _ => ⟨2 * Second⟩)).Len ≤
        ((testCache.Set ⟨0⟩ "a" 1 Second).Set ⟨0⟩ "b" 2 (3 * Second)).Len :=
  ⟨by decide,
   (C18_sweep_idempotent_and_shrinking
     ((testCache.Set ⟨0⟩ "a" 1 Second).Set ⟨0⟩ "b" 2 (3 * Second))
     (fun _ => ⟨2 * Second⟩) ⟨2 * Second⟩ (fun _ => rfl)).2.1⟩

/-- C19: a sweep pass changes the value `Get` returns for an expired key, never
the found flag. When the clock reads `t` throughout a pass and at the reads,
the found flag of `Get(k)` is the same before and after the pass; and for a key
whose entry is expired at `t` and holds a value `v` other than the zero value,
`Get(k)` returns `(v, false)` before the pass and the zero value with false
after it, so the two returned values differ. -/
theorem C19_sweep_changes_value_not_flag (c : Cache W K V) (ws : K → W) (w : W) (t : Time)
    (k : K) (hclock : ∀ k2 : K, c.now (ws k2) = t) (hw : c.now w = t) :
    ((c.cleanUpPass ws).Get w k).1.2 = (c.Get w k).1.2 ∧
      (∀ e : value V, (k, e) ∈ c.data.entries → e.isExpired t = true → e.data ≠ default →
        (c.Get w k).1 = (e.data, false) ∧
          ((c.cleanUpPass ws).Get w k).1 = (default, false) ∧
          ((c.cleanUpPass ws).Get w k).1.1 ≠ (c.Get w k).1.1) := by
  have hpass := Get_cleanUpPass c ws w k (by rw [hclock k, hw])
  have hget := Get_result c w k
  rw [hw] at hpass hget
  constructor
  · rw [hpass, hget]
    cases hl : lookupList k c.data.entries with
    | none => rfl
    | some e => cases he : e.isExpired t <;> simp [he]
  · intro e he hexp hdata
    have hl := (lookupList_eq_some_iff k e c.data.entries c.data.nodup).2 he
    rw [hl] at hpass hget
    simp only [hexp, if_true, Bool.not_true] at hpass hget
    refine ⟨hget, hpass, ?_⟩
    rw [hpass, hget]
    exact fun h => hdata h.symm

/-- Witness of C19: the entry set with `-2 * time.Hour`, read before and after
a pass. -/
theorem C19_sweep_changes_value_not_flag_witness :
    ((testCacheInt.Set ⟨0⟩ 1000 1 (-2 * Hour)).Get ⟨0⟩ 1000).1 = (1, false) ∧
      (((testCacheInt.Set ⟨0⟩ 1000 1 (-2 * Hour)).cleanUpPass (fun _ => ⟨0⟩)).Get
        ⟨0⟩ 1000).1 = (0, false) ∧
      (((testCacheInt.Set ⟨0⟩ 1000 1 (-2 * Hour)).cleanUpPass (fun _ => ⟨0⟩)).Get
        ⟨0⟩ 1000).1.2 = ((testCacheInt.Set ⟨0⟩ 1000 1 (-2 * Hour)).Get ⟨0⟩ 1000).1.2 :=
  ⟨by decide, by decide,
   (C19_sweep_changes_value_not_flag (testCacheInt.Set ⟨0⟩ 1000 1 (-2 * Hour))
     (fun _ => ⟨0⟩) ⟨0⟩ ⟨0⟩ 1000 (fun _ => rfl) rfl).1⟩

end MoreClaims

end ttlcache
